import Mathlib

/-!
Shallow embedding of the news-aggregation pipeline in
`src/src/components/NewsAggregator.tsx` and the data model in
`src/src/types/news.ts`.

External effects (the search service, the content-extraction service, the
translation service, the clock) are modelled as explicit oracle parameters.
Loops with awaits are embedded as pure recursions that additionally return an
event trace (searches, pacing delays, extraction and translation requests), so
that temporal claims about the order and presence of delays can be stated.
JS strings are modelled as Lean `String`, JS numbers holding timestamps as
`Int` (milliseconds), and JS truthiness of optional strings via `jsOr`.
-/

/-- Shape of the error objects the retry helper inspects: `error.details.code`
and `error.details.reset` (`NewsAggregator.tsx` lines 22-26).  Optional
chaining is modelled with `Option`. -/
structure ErrDetails where
  code : Option String
  reset : Option Int
deriving DecidableEq, Repr

/-- An error value; `details` may be absent. -/
structure Err where
  details : Option ErrDetails
deriving DecidableEq, Repr

/-- The check `error?.details?.code === 'RATE_LIMIT_EXCEEDED'` (line 23). -/
def isRateLimit (e : Err) : Bool :=
  (Option.bind e.details ErrDetails.code) == some ("RATE_LIMIT_EXCEEDED")

/-- The optional chain `error?.details?.reset` (line 24). -/
def resetOf (e : Err) : Option Int :=
  Option.bind e.details ErrDetails.reset

/-- The ternary on lines 24-26:
`error?.details?.reset ? new Date(error.details.reset).getTime() - Date.now()
: baseDelay * Math.pow(2, i)`.  JS truthiness makes a reset value of `0`
(the epoch) take the exponential branch, hence the inner `if`.  `t` is the
current time (`Date.now()`). -/
def waitTime (e : Err) (t : Int) (baseDelay i : Nat) : Int :=
  match resetOf e with
  | some r => if r ≠ 0 then r - t else (baseDelay : Int) * 2 ^ i
  | none => (baseDelay : Int) * 2 ^ i

/-- The wait actually performed on line 29:
`Math.max(waitTime, baseDelay * Math.pow(2, i))`. -/
def actualWait (e : Err) (t : Int) (baseDelay i : Nat) : Int :=
  max (waitTime e t baseDelay i) ((baseDelay : Int) * 2 ^ i)

/-- Result of one run of `retryWithBackoff`, instrumented for verification:
`result` is `ok (some v)` when `fn` returned `v`, `ok none` when the loop
fell through without ever looping (JS returns `undefined`), and `error e`
when the error `e` was re-thrown; `calls` counts invocations of `fn`; `waits`
lists the waits performed by `await delay(...)` (line 29), in order. -/
structure RetryResult (α : Type) where
  result : Except Err (Option α)
  calls : Nat
  waits : List Int
deriving Repr

/-- Body of the `for (let i = 0; i < maxRetries; i++)` loop of
`retryWithBackoff` (lines 18-35).  `fn j` is the outcome of the `j`-th
invocation of the wrapped operation and `now j` the value of `Date.now()`
during the `j`-th iteration.  The remaining iteration count
`maxRetries - i` is the structural fuel. -/
def retryAux {α : Type} (fn : Nat → Except Err α) (maxRetries : Int)
    (baseDelay : Nat) (now : Nat → Int) : Nat → Nat → RetryResult α
  | _, 0 => ⟨.ok none, 0, []⟩
  | i, fuel + 1 =>
    match fn i with
    | .ok v => ⟨.ok (some v), 1, []⟩
    | .error e =>
      if isRateLimit e = true ∧ (i : Int) < maxRetries - 1 then
        let rest := retryAux fn maxRetries baseDelay now (i + 1) fuel
        ⟨rest.result, rest.calls + 1, actualWait e (now i) baseDelay i :: rest.waits⟩
      else ⟨.error e, 1, []⟩

/-- `retryWithBackoff(fn, maxRetries = 3, baseDelay = 1000)`
(`NewsAggregator.tsx` lines 18-35).  The loop runs while `i < maxRetries`,
so it performs `max maxRetries 0` iterations at most. -/
def retryWithBackoff {α : Type} (fn : Nat → Except Err α) (maxRetries : Int)
    (baseDelay : Nat) (now : Nat → Int) : RetryResult α :=
  retryAux fn maxRetries baseDelay now 0 maxRetries.toNat

/-- Fields of the raw search results that `fetchNews` reads.  The results come
from the external search API as untyped records; every field the code treats
as possibly absent is an `Option`. -/
structure SResult where
  title : String
  snippet : Option String
  description : Option String
  link : String
  sourceName : Option String
  displayedLink : Option String
  date : Option String
  thumbnail : Option String
deriving DecidableEq, Repr, Inhabited

/-- JS `a || b` on an optional string `a`: the empty string is falsy. -/
def jsOr (a : Option String) (b : String) : String :=
  match a with
  | some s => if s = "" then b else s
  | none => b

/-- Deduplication by URL (lines 83-85):
`allResults.filter((result, index, self) => index === self.findIndex(r =>
r.link === result.link))`. -/
def uniqueResults (allResults : List SResult) : List SResult :=
  (allResults.enum.filter
    (fun p => allResults.findIdx (fun r => r.link == p.2.link) == p.1)).map
    Prod.snd

/-- Spec-side formulation of deduplication, written from the spec words
"keeping the first occurrence encountered (stable, first-wins semantics)":
walk the list once, keeping a result only when its link was not seen before. -/
def firstWinsByLink : List String → List SResult → List SResult
  | _, [] => []
  | seen, r :: rest =>
    if r.link ∈ seen then firstWinsByLink seen rest
    else r :: firstWinsByLink (r.link :: seen) rest

/-- `const maxArticles = Math.min(6, uniqueResults.length)` (line 92). -/
def maxArticles (allResults : List SResult) : Nat :=
  min 6 (uniqueResults allResults).length

/-- The results the `for (let i = 0; i < maxArticles; i++)` loop (line 94)
processes: `uniqueResults[0] … uniqueResults[maxArticles-1]`. -/
def cappedResults (allResults : List SResult) : List SResult :=
  (uniqueResults allResults).take (maxArticles allResults)

/-- The Article record (`src/src/types/news.ts`). -/
structure NewsArticle where
  id : String
  title : String
  originalText : String
  translatedText : String
  summary : String
  publishedAt : String
  sourceName : String
  url : String
  imageUrl : Option String
deriving DecidableEq, Repr

/-- Events observable in a pipeline run: a search for query `i`, a pacing or
backoff `wait` of the given milliseconds, a content-extraction request for
result `i`, a translation request for result `i`, the processing of result
`i`. -/
inductive Ev where
  | search (i : Nat)
  | wait (ms : Nat)
  | extract (i : Nat)
  | translate (i : Nat)
  | process (i : Nat)
deriving DecidableEq, Repr

/-- The article identifier `article-${Date.now()}-${i}` (line 146), with `ts`
the value of `Date.now()`. -/
def mkArticleId (ts i : Nat) : String :=
  "article-" ++ Nat.repr ts ++ "-" ++ Nat.repr i

/-- `result.snippet || result.description || ''` (line 101). -/
def seedBody (r : SResult) : String :=
  jsOr r.snippet (jsOr r.description (""))

/-- The fixed translation-failure marker (line 141). -/
def translationFailMessage : String := "翻訳に失敗しました"

/-- Processing of one surviving result (lines 97-157), with the two external
calls given as oracles: `eo` is the outcome of
`retryWithBackoff(() => blink.data.extractFromUrl(result.link))` and `tro`
the text outcome of `retryWithBackoff(() => blink.ai.generateText(...))`.
`ts` is `Date.now()` at line 146 and `nowIso` is `new Date().toISOString()`.
Returns the assembled article and the trace of events (extraction request,
the fixed 1500 ms delay of line 128, translation request). -/
def processResult (r : SResult) (i : Nat) (eo : Except Err String)
    (tro : Except Err String) (ts : Nat) (nowIso : String) :
    NewsArticle × List Ev :=
  let seed := seedBody r
  let ext : String × List Ev :=
    if seed.length < 200 ∧ i < 3 then
      (match eo with
       | .ok c => if c ≠ "" ∧ 200 < c.length then c.take 2000 else seed
       | .error _ => seed,
       [Ev.extract i])
    else (seed, [])
  let fullContent := ext.1
  let tr : String × List Ev :=
    if fullContent ≠ "" ∧ 50 < fullContent.length then
      (match tro with
       | .ok t => t
       | .error _ => translationFailMessage,
       [Ev.wait 1500, Ev.translate i])
    else ("", [])
  ({ id := mkArticleId ts i
     title := r.title
     originalText := fullContent
     translatedText := tr.1
     summary := ""
     publishedAt := jsOr r.date nowIso
     sourceName := jsOr r.sourceName (jsOr r.displayedLink ("Web"))
     url := r.link
     imageUrl := r.thumbnail }, ext.2 ++ tr.2)

/-- The batch of articles built by the processing loop (lines 89-168) when no
per-result iteration throws: result `i` of the capped list is processed with
oracles `eo i`, `tro i` and timestamp `ts i`. -/
def fetchBatch (allResults : List SResult) (eo tro : Nat → Except Err String)
    (ts : Nat → Nat) (nowIso : String) : List NewsArticle :=
  (List.range (cappedResults allResults).length).map
    (fun i => (processResult ((cappedResults allResults).getD i default) i
      (eo i) (tro i) (ts i) nowIso).1)

/-- The two hardcoded search queries (lines 44-47). -/
def searchQueries : List String :=
  ["AI 人工知能 最新ニュース 2024 OpenAI ChatGPT",
   "generative AI 生成AI 最新技術 Google Microsoft"]

/-- The sequential search loop (lines 52-78).  `outcome i` is the result of
`retryWithBackoff(() => blink.data.search(query, ...))` for query `i`: a list
of search results, or the error that escaped the retry helper.  The loop
accumulates results and a trace; the 2000 ms pacing delay on lines 71-73 sits
inside the `try` block, after the push, so it is reached only when the search
succeeded, and only while `i < searchQueries.length - 1`.  A failure jumps to
the `catch` on line 75, which just logs.  Fuel is `n - i`. -/
def searchLoopAux (outcome : Nat → Except Err (List SResult)) (n : Nat) :
    Nat → Nat → List SResult × List Ev
  | _, 0 => ([], [])
  | i, fuel + 1 =>
    let rest := searchLoopAux outcome n (i + 1) fuel
    match outcome i with
    | .ok rs =>
      (rs ++ rest.1,
       (Ev.search i :: if i < n - 1 then [Ev.wait 2000] else []) ++ rest.2)
    | .error _ => (rest.1, Ev.search i :: rest.2)

/-- The whole query loop over `n` queries, starting at index 0. -/
def searchLoop (outcome : Nat → Except Err (List SResult)) (n : Nat) :
    List SResult × List Ev :=
  searchLoopAux outcome n 0 n

/-- The article-processing loop (lines 94-168) abstracted to its control flow:
`step i` is `ok a` when the processing of result `i` runs to completion
producing article `a`, and `error e` when an exception escapes the per-result
handlers into the `catch` on line 165.  The 2000 ms pacing delay on lines
161-163 sits inside the `try`, after the push, so it runs only when the
iteration completed and `i < maxArticles - 1`.  Fuel is `m - i`. -/
def processLoopAux (step : Nat → Except Err NewsArticle) (m : Nat) :
    Nat → Nat → List NewsArticle × List Ev
  | _, 0 => ([], [])
  | i, fuel + 1 =>
    let rest := processLoopAux step m (i + 1) fuel
    match step i with
    | .ok a =>
      (a :: rest.1,
       (Ev.process i :: if i < m - 1 then [Ev.wait 2000] else []) ++ rest.2)
    | .error _ => (rest.1, Ev.process i :: rest.2)

/-- The whole processing loop over `m` capped results. -/
def processLoop (step : Nat → Except Err NewsArticle) (m : Nat) :
    List NewsArticle × List Ev :=
  processLoopAux step m 0 m

/-- The three hardcoded fallback sample articles (lines 178-275).  Their
`publishedAt` field is `new Date().toISOString()`, passed in as `nowIso`;
every other field is a literal. -/
def sampleArticles (nowIso : String) : List NewsArticle :=
  [{ id := "sample-1"
     title := "OpenAI Releases GPT-4 Turbo with Enhanced Capabilities and Reduced Costs"
     originalText := "OpenAI has announced the release of GPT-4 Turbo, a significant update to their flagship language model that promises enhanced reasoning capabilities and substantially reduced costs for developers and businesses.\n\nThe new model features improved performance across multiple domains, including better code generation, mathematical reasoning, and creative writing. According to OpenAI\x27s internal benchmarks, GPT-4 Turbo shows a 25% improvement in complex reasoning tasks compared to its predecessor.\n\nKey improvements include:\n- Enhanced context window supporting up to 128,000 tokens\n- Reduced API pricing by 50% for input tokens and 25% for output tokens\n- Improved instruction following and reduced hallucinations\n- Better performance on coding tasks and technical documentation\n- Enhanced multilingual capabilities\n\nThe model is now available through OpenAI\x27s API with immediate access for existing customers. Enterprise customers will receive priority access to the new features, including advanced fine-tuning capabilities and dedicated compute resources."
     translatedText := "OpenAIは、主力言語モデルの大幅なアップデートであるGPT-4 Turboのリリースを発表しました。このモデルは、推論能力の向上と開発者・企業向けのコスト大幅削減を約束しています。\n\n新しいモデルは、より良いコード生成、数学的推論、創作文章など、複数の領域でパフォーマンスが向上しています。OpenAIの内部ベンチマークによると、GPT-4 Turboは前モデルと比較して複雑な推論タスクで25%の改善を示しています。\n\n主な改善点：\n- 最大128,000トークンをサポートする拡張されたコンテキストウィンドウ\n- 入力トークンで50%、出力トークンで25%のAPI価格削減\n- 指示追従の改善と幻覚の減少\n- コーディングタスクと技術文書でのパフォーマンス向上\n- 多言語機能の強化\n\nこのモデルは現在、OpenAIのAPIを通じて既存顧客に即座にアクセス可能です。エンタープライズ顧客は、高度なファインチューニング機能や専用計算リソースを含む新機能への優先アクセスを受けられます。"
     summary := ""
     publishedAt := nowIso
     sourceName := "OpenAI Blog"
     url := "https://openai.com/blog/gpt-4-turbo"
     imageUrl := none },
   { id := "sample-2"
     title := "Google Announces Gemini 2.0 with Multimodal AI Capabilities"
     originalText := "Google has unveiled Gemini 2.0, its most advanced AI model yet, featuring groundbreaking multimodal capabilities that can process text, images, audio, and video simultaneously. The new model represents a significant leap forward in AI technology and sets new benchmarks for performance across various tasks.\n\nGemini 2.0 introduces several revolutionary features:\n- Native multimodal understanding without separate processing pipelines\n- Real-time video analysis and generation capabilities\n- Advanced reasoning across different media types\n- Improved safety measures and alignment protocols\n- Enhanced efficiency with reduced computational requirements\n\nThe model has been integrated into Google\x27s suite of products, including Search, Assistant, and Workspace applications. Early testing shows remarkable improvements in complex reasoning tasks, with the model demonstrating human-level performance in many areas.\n\n\"Gemini 2.0 represents our vision of AI that truly understands the world as humans do,\" said Sundar Pichai, CEO of Google. \"This is not just about processing different types of data, but about creating genuine understanding across modalities.\""
     translatedText := "Googleは、テキスト、画像、音声、動画を同時に処理できる画期的なマルチモーダル機能を特徴とする最も高度なAIモデル、Gemini 2.0を発表しました。この新しいモデルはAI技術における大きな飛躍を表し、様々なタスクでパフォーマンスの新しいベンチマークを設定しています。\n\nGemini 2.0はいくつかの革新的な機能を導入しています：\n- 別々の処理パイプラインを必要としないネイティブマルチモーダル理解\n- リアルタイム動画分析と生成機能\n- 異なるメディアタイプ間での高度な推論\n- 改善された安全対策と整合プロトコル\n- 計算要件を削減した効率性の向上\n\nこのモデルは、検索、アシスタント、Workspaceアプリケーションを含むGoogleの製品スイートに統合されています。初期テストでは複雑な推論タスクで顕著な改善が示され、多くの分野で人間レベルのパフォーマンスを実証しています。\n\n「Gemini 2.0は、人間と同じように世界を真に理解するAIという我々のビジョンを表しています」と、GoogleのCEOであるサンダー・ピチャイは述べました。「これは単に異なるタイプのデータを処理することではなく、モダリティ間での真の理解を創造することです。」"
     summary := ""
     publishedAt := nowIso
     sourceName := "Google AI Blog"
     url := "https://ai.googleblog.com/gemini-2-0"
     imageUrl := none },
   { id := "sample-3"
     title := "Microsoft Copilot Gets Major Update with Advanced AI Reasoning"
     originalText := "Microsoft has announced a significant update to its Copilot AI assistant, introducing advanced reasoning capabilities that promise to transform how users interact with AI-powered productivity tools. The update brings enhanced problem-solving abilities and more sophisticated understanding of complex tasks.\n\nThe new reasoning engine can now handle multi-step problems, analyze complex data relationships, and provide detailed explanations for its recommendations. This represents a major leap forward from previous versions that primarily focused on text generation and basic task automation.\n\nEnhanced capabilities include:\n- Advanced mathematical and logical reasoning\n- Complex data analysis and visualization suggestions\n- Multi-document synthesis and comparison\n- Improved code debugging and optimization recommendations\n- Enhanced natural language understanding for technical queries\n\nThe update also introduces a new \"Reasoning Mode\" that allows users to see the AI\x27s thought process step-by-step. This transparency feature helps users understand how Copilot arrives at its conclusions and builds trust in AI-generated recommendations."
     translatedText := "Microsoftは、AI搭載生産性ツールとのユーザーインタラクションを変革することを約束する高度な推論機能を導入し、CopilotAIアシスタントの大幅なアップデートを発表しました。このアップデートは、強化された問題解決能力と複雑なタスクのより洗練された理解をもたらします。\n\n新しい推論エンジンは、多段階の問題を処理し、複雑なデータ関係を分析し、その推薦事項について詳細な説明を提供できるようになりました。これは、主にテキスト生成と基本的なタスク自動化に焦点を当てていた以前のバージョンからの大きな飛躍を表しています。\n\n強化された機能：\n- 高度な数学的・論理的推論\n- 複雑なデータ分析と可視化提案\n- 複数文書の統合と比較\n- 改善されたコードデバッグと最適化推薦\n- 技術的クエリに対する強化された自然言語理解\n\nこのアップデートでは、ユーザーがAIの思考プロセスを段階的に確認できる新しい「推論モード」も導入されています。この透明性機能は、ユーザーがCopilotがどのように結論に到達するかを理解し、AI生成の推薦事項への信頼を構築するのに役立ちます。"
     summary := ""
     publishedAt := nowIso
     sourceName := "Microsoft News"
     url := "https://news.microsoft.com/copilot-reasoning-update"
     imageUrl := none }]

/-- The batch the UI displays after a run of `fetchNews`: on success the
processed articles (`setArticles(processedArticles)`, line 170); when an
error reaches the top-level `catch` (line 173), everything gathered so far is
discarded and the hardcoded samples are shown instead
(`setArticles(sampleArticles)`, line 276). -/
def fetchNewsDisplayed (gathered : List NewsArticle) (err : Option Err)
    (nowIso : String) : List NewsArticle :=
  match err with
  | none => gathered
  | some _ => sampleArticles nowIso

/-- Helper for reasoning about `Nat.repr`: the most-significant-first decimal
digits of `n`, as characters. -/
def digitsAux (n : Nat) : List Char :=
  if _h : n < 10 then [Nat.digitChar n]
  else digitsAux (n / 10) ++ [Nat.digitChar (n % 10)]
decreasing_by exact Nat.div_lt_self (by omega) (by omega)

/-- Spec-side description of a paced loop trace, used for the amended pacing
claim: iteration `i` emits its tag event, followed by a 2000 ms pacing delay
exactly when the iteration succeeded (`okAt i`) and it is not the last one. -/
def pacedTraceAux (okAt : Nat → Bool) (tag : Nat → Ev) (n : Nat) :
    Nat → Nat → List Ev
  | _, 0 => []
  | i, f + 1 =>
    (tag i :: if okAt i = true ∧ i < n - 1 then [Ev.wait 2000] else []) ++
    pacedTraceAux okAt tag n (i + 1) f

/-- The paced trace of a whole loop of `n` iterations. -/
def pacedTrace (okAt : Nat → Bool) (tag : Nat → Ev) (n : Nat) : List Ev :=
  pacedTraceAux okAt tag n 0 n

/-- Seven concrete search results with pairwise-distinct links, used as a
concrete input when evaluating the pipeline functions. -/
def sevenResults : List SResult :=
  [⟨"t1", some ("s1"), none, "https://a.example/1", none, none, none, none⟩,
   ⟨"t2", some ("s2"), none, "https://a.example/2", none, none, none, none⟩,
   ⟨"t3", some ("s3"), none, "https://a.example/3", none, none, none, none⟩,
   ⟨"t4", some ("s4"), none, "https://a.example/4", none, none, none, none⟩,
   ⟨"t5", some ("s5"), none, "https://a.example/5", none, none, none, none⟩,
   ⟨"t6", some ("s6"), none, "https://a.example/6", none, none, none, none⟩,
   ⟨"t7", some ("s7"), none, "https://a.example/7", none, none, none, none⟩]

/-! ### Lemmas about the Backoff Executor -/

/-- One loop iteration that re-throws: the caught error is either not
rate-limited or no attempts remain. -/
theorem retryAux_stop {α : Type} (fn : Nat → Except Err α) (M : Int) (b : Nat)
    (now : Nat → Int) (i f : Nat) (e : Err) (hfi : fn i = .error e)
    (hc : ¬(isRateLimit e = true ∧ (i : Int) < M - 1)) :
    retryAux fn M b now i (f + 1) = ⟨.error e, 1, []⟩ := by
  simp [retryAux, hfi, hc]

/-- One loop iteration that retries: rate-limited error with attempts
remaining. -/
theorem retryAux_step {α : Type} (fn : Nat → Except Err α) (M : Int) (b : Nat)
    (now : Nat → Int) (i f : Nat) (e : Err) (hfi : fn i = .error e)
    (hrl : isRateLimit e = true) (hlt : (i : Int) < M - 1) :
    retryAux fn M b now i (f + 1) =
      ⟨(retryAux fn M b now (i + 1) f).result,
       (retryAux fn M b now (i + 1) f).calls + 1,
       actualWait e (now i) b i :: (retryAux fn M b now (i + 1) f).waits⟩ := by
  simp [retryAux, hfi, hrl, hlt]

/-- Characterization of a run in which every attempt fails with a
rate-limited error: the loop uses all its fuel, waits `actualWait` before
each retry, and re-throws the error of the last attempt. -/
theorem retryAux_all_rate_limited {α : Type} (fn : Nat → Except Err α)
    (es : Nat → Err) (M : Int) (b : Nat) (now : Nat → Int)
    (hfn : ∀ j, fn j = .error (es j)) (hrl : ∀ j, isRateLimit (es j) = true) :
    ∀ (f i : Nat), (i : Int) + (f + 1) = M →
      retryAux fn M b now i (f + 1) =
        ⟨.error (es (i + f)), f + 1,
          (List.range f).map (fun j => actualWait (es (i + j)) (now (i + j)) b (i + j))⟩ := by
  intro f
  induction f with
  | zero =>
    intro i hM
    have hlt : ¬((i : Int) < M - 1) := by omega
    rw [retryAux_stop fn M b now i 0 (es i) (hfn i) (by simp [hlt])]
    simp
  | succ f ih =>
    intro i hM
    have hlt : (i : Int) < M - 1 := by push_cast at hM; omega
    have hrec := ih (i + 1) (by push_cast at hM ⊢; omega)
    rw [retryAux_step fn M b now i (f + 1) (es i) (hfn i) (hrl i) hlt, hrec]
    have hidx : i + 1 + f = i + (f + 1) := by omega
    rw [hidx]
    congr 1
    rw [List.range_succ_eq_map, List.map_cons, List.map_map]
    refine congrArg₂ List.cons (by simp) ?_
    refine List.map_congr_left (fun a _ => ?_)
    simp only [Function.comp_apply]
    rw [show i + (a + 1) = i + 1 + a by omega]

/-- Characterization of a run whose first `k` attempts fail rate-limited and
whose attempt `k` fails with a non-rate-limited error: the error of attempt
`k` propagates at once, after exactly `k + 1` invocations. -/
theorem retryAux_stops_non_rate_limited {α : Type} (fn : Nat → Except Err α)
    (es : Nat → Err) (e : Err) (M : Int) (b : Nat) (now : Nat → Int) :
    ∀ (k i f : Nat),
      (∀ j, j < k → fn (i + j) = .error (es (i + j)) ∧ isRateLimit (es (i + j)) = true) →
      k < f → ((i : Int) + f = M) → fn (i + k) = .error e → isRateLimit e = false →
      (retryAux fn M b now i f).result = .error e ∧
      (retryAux fn M b now i f).calls = k + 1 := by
  intro k
  induction k with
  | zero =>
    intro i f _hpre hkf _hM hfk hnrl
    obtain ⟨f', rfl⟩ : ∃ f', f = f' + 1 := ⟨f - 1, by omega⟩
    rw [Nat.add_zero] at hfk
    rw [retryAux_stop fn M b now i f' e hfk (by simp [hnrl])]
    exact ⟨rfl, rfl⟩
  | succ k ih =>
    intro i f hpre hkf hM hfk hnrl
    obtain ⟨f', rfl⟩ : ∃ f', f = f' + 1 := ⟨f - 1, by omega⟩
    have h0 := hpre 0 (Nat.succ_pos k)
    rw [Nat.add_zero] at h0
    have hlt : (i : Int) < M - 1 := by push_cast at hM; omega
    have hih := ih (i + 1) f'
      (fun j hj => by
        have h := hpre (j + 1) (by omega)
        rwa [show i + (j + 1) = i + 1 + j from by omega] at h)
      (by omega) (by push_cast at hM ⊢; omega)
      (by rwa [show i + (k + 1) = i + 1 + k from by omega] at hfk) hnrl
    rw [retryAux_step fn M b now i f' (es i) h0.1 h0.2 hlt]
    exact ⟨hih.1, by simpa using hih.2⟩

/-- C1: the Backoff Executor retries exactly the rate-limit-classified
failures while attempts remain.  First conjunct: if the first `k` attempts
fail rate-limited and attempt `k` (with `k < maxRetries`) fails with an error
not classified as rate-limited, that error propagates immediately — the
operation is invoked `k + 1` times, so a non-rate-limited error is never
retried.  Second conjunct: if every attempt fails rate-limited, the operation
is invoked exactly `maxRetries` times (`maxRetries - 1` retries) and the
error of the last attempt propagates unchanged — no synthesized error. -/
theorem retry_policy_rate_limit_only {α : Type} (fn : Nat → Except Err α)
    (es : Nat → Err) (e : Err) (m k : Nat) (b : Nat) (now : Nat → Int) :
    ((∀ j, j < k → fn j = .error (es j) ∧ isRateLimit (es j) = true) → k < m →
      fn k = .error e → isRateLimit e = false →
      (retryWithBackoff fn (m : Int) b now).result = .error e ∧
      (retryWithBackoff fn (m : Int) b now).calls = k + 1)
    ∧ (1 ≤ m → (∀ j, fn j = .error (es j)) → (∀ j, isRateLimit (es j) = true) →
      (retryWithBackoff fn (m : Int) b now).result = .error (es (m - 1)) ∧
      (retryWithBackoff fn (m : Int) b now).calls = m) := by
  constructor
  · intro hpre hkm hfk hnrl
    have := retryAux_stops_non_rate_limited fn es e (m : Int) b now k 0 m
      (by simpa using hpre) hkm (by push_cast; omega) (by simpa using hfk) hnrl
    simpa [retryWithBackoff, Int.toNat_natCast] using this
  · intro hm hfn hrl
    obtain ⟨f, rfl⟩ : ∃ f, m = f + 1 := ⟨m - 1, by omega⟩
    have := retryAux_all_rate_limited fn es ((f + 1 : Nat) : Int) b now hfn hrl f 0
      (by push_cast; omega)
    rw [retryWithBackoff, Int.toNat_natCast, this]
    simp

/-- Witness for `retry_policy_rate_limit_only`, at `maxRetries = 3`: an
always-rate-limited operation is invoked 3 times and its last error
propagates; an operation failing with a plain error is invoked once. -/
theorem retry_policy_rate_limit_only_witness :
    ((retryWithBackoff (fun _ => .error ⟨some ⟨some ("RATE_LIMIT_EXCEEDED"), none⟩⟩ :
        Nat → Except Err Nat) (3 : Int) 1000 (fun _ => 0)).result =
      .error ⟨some ⟨some ("RATE_LIMIT_EXCEEDED"), none⟩⟩ ∧
     (retryWithBackoff (fun _ => .error ⟨some ⟨some ("RATE_LIMIT_EXCEEDED"), none⟩⟩ :
        Nat → Except Err Nat) (3 : Int) 1000 (fun _ => 0)).calls = 3)
    ∧ ((retryWithBackoff (fun _ => .error ⟨none⟩ : Nat → Except Err Nat)
        (3 : Int) 1000 (fun _ => 0)).result = .error ⟨none⟩ ∧
       (retryWithBackoff (fun _ => .error ⟨none⟩ : Nat → Except Err Nat)
        (3 : Int) 1000 (fun _ => 0)).calls = 1) := by
  constructor
  · exact (retry_policy_rate_limit_only
      (fun _ => .error ⟨some ⟨some ("RATE_LIMIT_EXCEEDED"), none⟩⟩)
      (fun _ => ⟨some ⟨some ("RATE_LIMIT_EXCEEDED"), none⟩⟩)
      ⟨some ⟨some ("RATE_LIMIT_EXCEEDED"), none⟩⟩ 3 0 1000 (fun _ => 0)).2
      (by decide) (fun _ => rfl) (fun _ => rfl)
  · exact (retry_policy_rate_limit_only (fun _ => .error ⟨none⟩)
      (fun _ => ⟨none⟩) ⟨none⟩ 3 0 1000 (fun _ => 0)).1
      (fun j hj => absurd hj (Nat.not_lt_zero j)) (by decide) rfl (by decide)

/-- C2: the wait before a retry.  First conjunct: `actualWait` equals the
maximum of (reset timestamp minus current time) and `baseDelay * 2 ^ i` when
a reset timestamp is present, and `baseDelay * 2 ^ i` otherwise (for any
non-negative clock value, which covers the JS-falsy reset value 0).  Second
conjunct: the wait is always at least `baseDelay * 2 ^ i`.  Third conjunct:
in a run of the executor whose attempts all fail rate-limited, the `j`-th
wait performed is exactly `actualWait` of the `j`-th error at attempt index
`j`. -/
theorem retry_wait_floor (e : Err) (t : Int) (b i : Nat) (ht : 0 ≤ t) :
    (actualWait e t b i =
      match resetOf e with
      | some r => max (r - t) ((b : Int) * 2 ^ i)
      | none => (b : Int) * 2 ^ i)
    ∧ (b : Int) * 2 ^ i ≤ actualWait e t b i
    ∧ (∀ (fn : Nat → Except Err Unit) (es : Nat → Err) (m : Nat) (now : Nat → Int),
        1 ≤ m → (∀ j, fn j = .error (es j)) → (∀ j, isRateLimit (es j) = true) →
        (retryWithBackoff fn (m : Int) b now).waits =
          (List.range (m - 1)).map (fun j => actualWait (es j) (now j) b j)) := by
  refine ⟨?_, le_max_right _ _, ?_⟩
  · have hb : (0 : Int) ≤ (b : Int) * 2 ^ i := by positivity
    cases hr : resetOf e with
    | none => simp [actualWait, waitTime, hr]
    | some r =>
      by_cases h0 : r = 0
      · subst h0
        simp only [actualWait, waitTime, hr, ne_eq, not_true_eq_false, if_false,
          max_self, zero_sub]
        rw [eq_comm, max_eq_right (by omega)]
      · simp [actualWait, waitTime, hr, h0]
  · intro fn es m now hm hfn hrl
    obtain ⟨f, rfl⟩ : ∃ f, m = f + 1 := ⟨m - 1, by omega⟩
    have := retryAux_all_rate_limited fn es ((f + 1 : Nat) : Int) b now hfn hrl f 0
      (by push_cast; omega)
    rw [retryWithBackoff, Int.toNat_natCast, this]
    simp

/-- Witness for `retry_wait_floor`: with a reset timestamp of 50000 at time
10000 and `baseDelay = 1000`, attempt 0, the wait is
`max (50000 - 10000) 1000 = 40000`, and an all-rate-limited run with
`maxRetries = 2` performs exactly that one wait. -/
theorem retry_wait_floor_witness :
    actualWait ⟨some ⟨some ("RATE_LIMIT_EXCEEDED"), some 50000⟩⟩ 10000 1000 0 = 40000
    ∧ (1000 : Int) * 2 ^ 0 ≤
        actualWait ⟨some ⟨some ("RATE_LIMIT_EXCEEDED"), some 50000⟩⟩ 10000 1000 0
    ∧ (retryWithBackoff
        (fun _ => .error ⟨some ⟨some ("RATE_LIMIT_EXCEEDED"), some 50000⟩⟩ :
          Nat → Except Err Unit) (2 : Int) 1000 (fun _ => 10000)).waits =
        [actualWait ⟨some ⟨some ("RATE_LIMIT_EXCEEDED"), some 50000⟩⟩ 10000 1000 0] := by
  have h := retry_wait_floor ⟨some ⟨some ("RATE_LIMIT_EXCEEDED"), some 50000⟩⟩
    10000 1000 0 (by decide)
  refine ⟨?_, h.2.1, ?_⟩
  · have h1 := h.1
    simpa [resetOf] using h1
  · have h3 := h.2.2 (fun _ => .error ⟨some ⟨some ("RATE_LIMIT_EXCEEDED"), some 50000⟩⟩)
      (fun _ => ⟨some ⟨some ("RATE_LIMIT_EXCEEDED"), some 50000⟩⟩) 2 (fun _ => 10000)
      (by decide) (fun _ => rfl) (fun _ => rfl)
    simpa using h3

/-- C10: invoked with a non-positive maximum attempt count, the executor
resolves successfully with no value (`undefined`), never invoking the
wrapped operation (zero calls, zero waits). -/
theorem retry_nonpositive_attempts {α : Type} (fn : Nat → Except Err α)
    (m : Int) (b : Nat) (now : Nat → Int) (hm : m ≤ 0) :
    retryWithBackoff fn m b now = ⟨.ok none, 0, []⟩ := by
  rw [retryWithBackoff, Int.toNat_of_nonpos hm]
  rfl

/-- Witness for `retry_nonpositive_attempts` at `maxRetries = 0` and
`maxRetries = -5`, with an operation that would succeed if invoked. -/
theorem retry_nonpositive_attempts_witness :
    retryWithBackoff (fun _ => .ok 7 : Nat → Except Err Nat) (0 : Int) 1000
      (fun _ => 0) = ⟨.ok none, 0, []⟩
    ∧ retryWithBackoff (fun _ => .ok 7 : Nat → Except Err Nat) (-5 : Int) 1000
      (fun _ => 0) = ⟨.ok none, 0, []⟩ :=
  ⟨retry_nonpositive_attempts _ 0 1000 (fun _ => 0) (by decide),
   retry_nonpositive_attempts _ (-5) 1000 (fun _ => 0) (by decide)⟩

/-! ### Lemmas about deduplication -/

/-- `findIdx` over an append whose first part contains no match. -/
theorem findIdx_append_of_forall_false {α : Type} (p : α → Bool) :
    ∀ (l1 l2 : List α), (∀ x ∈ l1, p x = false) →
      (l1 ++ l2).findIdx p = l1.length + l2.findIdx p := by
  intro l1
  induction l1 with
  | nil => intro l2 _; simp
  | cons a l ih =>
    intro l2 h
    have ha : p a = false := h a (List.mem_cons_self a l)
    rw [List.cons_append, List.findIdx_cons, ha]
    rw [ih l2 (fun x hx => h x (List.mem_cons_of_mem a hx))]
    simp [Nat.succ_add]

/-- `findIdx` over an append whose first part contains a match. -/
theorem findIdx_append_lt {α : Type} (p : α → Bool) :
    ∀ (l1 l2 : List α), (∃ x ∈ l1, p x = true) →
      (l1 ++ l2).findIdx p < l1.length := by
  intro l1
  induction l1 with
  | nil => rintro l2 ⟨x, hx, _⟩; exact absurd hx (List.not_mem_nil x)
  | cons a l ih =>
    rintro l2 ⟨x, hx, hpx⟩
    rw [List.cons_append, List.findIdx_cons]
    by_cases ha : p a = true
    · simp [ha]
    · have hx' : x ∈ l := by
        rcases List.mem_cons.mp hx with h | h
        · subst h; exact absurd hpx ha
        · exact h
      rw [Bool.eq_false_iff.mpr ha]
      simpa using Nat.succ_lt_succ (ih l2 ⟨x, hx', hpx⟩)

/-- Invariant-carrying form of the deduplication equivalence: filtering the
enumerated suffix by first-index-equality over the whole list agrees with the
single-pass first-wins function, provided `seen` holds exactly the links of
the prefix already walked. -/
theorem uniqueResults_go :
    ∀ (suf pre : List SResult) (seen : List String),
      (∀ s : String, s ∈ seen ↔ ∃ r ∈ pre, r.link = s) →
      ((List.enumFrom pre.length suf).filter
        (fun p => (pre ++ suf).findIdx (fun q => q.link == p.2.link) == p.1)).map
        Prod.snd = firstWinsByLink seen suf := by
  intro suf
  induction suf with
  | nil => intro pre seen _; simp [firstWinsByLink]
  | cons r rest ih =>
    intro pre seen hinv
    rw [show List.enumFrom pre.length (r :: rest) =
      (pre.length, r) :: List.enumFrom (pre.length + 1) rest from rfl]
    rw [List.filter_cons]
    by_cases hseen : r.link ∈ seen
    · obtain ⟨x, hx, hlx⟩ := (hinv r.link).mp hseen
      have hlt : (pre ++ r :: rest).findIdx (fun q => q.link == r.link) < pre.length :=
        findIdx_append_lt _ pre (r :: rest) ⟨x, hx, by simp [hlx]⟩
      rw [if_neg (by simp; omega)]
      rw [show firstWinsByLink seen (r :: rest) =
        if r.link ∈ seen then firstWinsByLink seen rest
        else r :: firstWinsByLink (r.link :: seen) rest from rfl, if_pos hseen]
      have hrec := ih (pre ++ [r]) seen (fun s => by
        rw [hinv s]
        constructor
        · rintro ⟨y, hy, hly⟩; exact ⟨y, by simp [hy], hly⟩
        · rintro ⟨y, hy, hly⟩
          rcases List.mem_append.mp hy with h | h
          · exact ⟨y, h, hly⟩
          · simp at h; subst h; exact ⟨x, hx, by rw [hlx, hly]⟩)
      simpa [List.length_append, List.append_assoc] using hrec
    · have hall : ∀ x ∈ pre, (fun q : SResult => q.link == r.link) x = false := by
        intro x hx
        simp only [beq_eq_false_iff_ne, ne_eq]
        intro hcontra
        exact hseen ((hinv r.link).mpr ⟨x, hx, hcontra⟩)
      have heq : (pre ++ r :: rest).findIdx (fun q => q.link == r.link) = pre.length := by
        rw [findIdx_append_of_forall_false _ pre (r :: rest) hall]
        simp [List.findIdx_cons]
      rw [if_pos (by simp [heq])]
      rw [List.map_cons]
      rw [show firstWinsByLink seen (r :: rest) =
        if r.link ∈ seen then firstWinsByLink seen rest
        else r :: firstWinsByLink (r.link :: seen) rest from rfl, if_neg hseen]
      congr 1
      have hrec := ih (pre ++ [r]) (r.link :: seen) (fun s => by
        constructor
        · intro hs
          rcases List.mem_cons.mp hs with h | h
          · exact ⟨r, by simp, h.symm⟩
          · obtain ⟨y, hy, hly⟩ := (hinv s).mp h
            exact ⟨y, by simp [hy], hly⟩
        · rintro ⟨y, hy, hly⟩
          rcases List.mem_append.mp hy with h | h
          · exact List.mem_cons_of_mem _ ((hinv s).mpr ⟨y, h, hly⟩)
          · simp at h; subst h; rw [← hly]; exact List.mem_cons_self _ _)
      simpa [List.length_append, List.append_assoc] using hrec

/-- The filter-by-first-index deduplication of the source equals the
single-pass first-wins function. -/
theorem uniqueResults_eq_firstWins (allResults : List SResult) :
    uniqueResults allResults = firstWinsByLink [] allResults := by
  have h := uniqueResults_go allResults [] [] (by simp)
  simpa [uniqueResults, List.enum] using h

/-- First-wins deduplication preserves relative order (sublist). -/
theorem firstWinsByLink_sublist :
    ∀ (l : List SResult) (seen : List String), (firstWinsByLink seen l).Sublist l := by
  intro l
  induction l with
  | nil => intro seen; simp [firstWinsByLink]
  | cons r rest ih =>
    intro seen
    rw [show firstWinsByLink seen (r :: rest) =
      if r.link ∈ seen then firstWinsByLink seen rest
      else r :: firstWinsByLink (r.link :: seen) rest from rfl]
    split
    · exact (ih seen).cons r
    · exact (ih (r.link :: seen)).cons₂ r

/-- First-wins deduplication yields pairwise-distinct links, none of them in
`seen`. -/
theorem firstWinsByLink_nodup_and_disjoint :
    ∀ (l : List SResult) (seen : List String),
      ((firstWinsByLink seen l).map SResult.link).Nodup ∧
      ∀ r ∈ firstWinsByLink seen l, r.link ∉ seen := by
  intro l
  induction l with
  | nil => intro seen; simp [firstWinsByLink]
  | cons r rest ih =>
    intro seen
    rw [show firstWinsByLink seen (r :: rest) =
      if r.link ∈ seen then firstWinsByLink seen rest
      else r :: firstWinsByLink (r.link :: seen) rest from rfl]
    by_cases hseen : r.link ∈ seen
    · rw [if_pos hseen]; exact ih seen
    · rw [if_neg hseen]
      obtain ⟨hnd, hdis⟩ := ih (r.link :: seen)
      refine ⟨?_, ?_⟩
      · rw [List.map_cons, List.nodup_cons]
        refine ⟨?_, hnd⟩
        intro hmem
        obtain ⟨y, hy, hly⟩ := List.mem_map.mp hmem
        exact (hdis y hy) (by rw [hly]; exact List.mem_cons_self _ _)
      · intro y hy
        rcases List.mem_cons.mp hy with h | h
        · subst h; exact hseen
        · intro hc; exact (hdis y h) (List.mem_cons_of_mem _ hc)

/-- C3: for every list of merged search results, deduplication keeps exactly
the first-encountered result for each distinct `link` value (first conjunct:
it coincides with the single-pass first-wins walk), the survivors appear in
their original relative order (second conjunct: sublist), and the surviving
links are pairwise distinct (third conjunct). -/
theorem dedup_first_wins_stable (allResults : List SResult) :
    uniqueResults allResults = firstWinsByLink [] allResults ∧
    (uniqueResults allResults).Sublist allResults ∧
    ((uniqueResults allResults).map SResult.link).Nodup := by
  refine ⟨uniqueResults_eq_firstWins allResults, ?_, ?_⟩
  · rw [uniqueResults_eq_firstWins]
    exact firstWinsByLink_sublist allResults []
  · rw [uniqueResults_eq_firstWins]
    exact (firstWinsByLink_nodup_and_disjoint allResults []).1

/-- C4: the processed results are exactly the first 6 deduplicated results in
discovery order (a plain `take`, no scoring or ranking), so at most 6 results
are processed into articles even when more unique results are available, and
the article batch has one article per capped result. -/
theorem capped_at_six (allResults : List SResult)
    (eo tro : Nat → Except Err String) (ts : Nat → Nat) (nowIso : String) :
    cappedResults allResults = (uniqueResults allResults).take 6 ∧
    (cappedResults allResults).length ≤ 6 ∧
    (6 ≤ (uniqueResults allResults).length → (cappedResults allResults).length = 6) ∧
    (fetchBatch allResults eo tro ts nowIso).length = (cappedResults allResults).length := by
  have h1 : cappedResults allResults = (uniqueResults allResults).take 6 := by
    rw [cappedResults, maxArticles]
    calc (uniqueResults allResults).take (min 6 (uniqueResults allResults).length)
        = ((uniqueResults allResults).take (uniqueResults allResults).length).take 6 := by
          rw [List.take_take]
      _ = (uniqueResults allResults).take 6 := by rw [List.take_length]
  refine ⟨h1, ?_, ?_, ?_⟩
  · rw [h1, List.length_take]
    exact Nat.min_le_left _ _
  · intro h6
    rw [h1, List.length_take]
    omega
  · simp [fetchBatch]

/-- Witness for `capped_at_six`: seven unique results are available, yet
exactly 6 are processed. -/
theorem capped_at_six_witness :
    6 ≤ (uniqueResults sevenResults).length ∧
    (cappedResults sevenResults).length = 6 :=
  ⟨by decide,
   (capped_at_six sevenResults (fun _ => .error ⟨none⟩) (fun _ => .error ⟨none⟩)
     (fun _ => 0) "").2.2.1 (by decide)⟩

/-! ### Lemmas about per-result processing -/

/-- The body of an article: the extracted content truncated to 2000
characters when extraction was eligible, succeeded, and returned more than
200 characters; otherwise the snippet-derived seed body. -/
theorem processResult_originalText (r : SResult) (i : Nat)
    (eo tro : Except Err String) (ts : Nat) (nowIso : String) :
    (processResult r i eo tro ts nowIso).1.originalText =
      (if (seedBody r).length < 200 ∧ i < 3 then
        match eo with
        | .ok c => if c ≠ "" ∧ 200 < c.length then c.take 2000 else seedBody r
        | .error _ => seedBody r
      else seedBody r) := by
  by_cases hc : (seedBody r).length < 200 ∧ i < 3 <;> simp [processResult, hc]

/-- The translated field: the translation outcome when the body is long
enough (failure marker on error), empty otherwise. -/
theorem processResult_translatedText (r : SResult) (i : Nat)
    (eo tro : Except Err String) (ts : Nat) (nowIso : String) :
    (processResult r i eo tro ts nowIso).1.translatedText =
      (if (processResult r i eo tro ts nowIso).1.originalText ≠ "" ∧
          50 < (processResult r i eo tro ts nowIso).1.originalText.length then
        match tro with
        | .ok t => t
        | .error _ => translationFailMessage
      else "") :=
  apply_ite Prod.fst
    ((processResult r i eo tro ts nowIso).1.originalText ≠ "" ∧
      50 < (processResult r i eo tro ts nowIso).1.originalText.length)
    ((match tro with
      | .ok t => t
      | .error _ => translationFailMessage : String),
     [Ev.wait 1500, Ev.translate i])
    ("", [])

/-- The events of one result's processing: an extraction request exactly when
the eligibility condition holds, then the fixed 1500 ms delay and the
translation request exactly when the body is long enough. -/
theorem processResult_trace (r : SResult) (i : Nat)
    (eo tro : Except Err String) (ts : Nat) (nowIso : String) :
    (processResult r i eo tro ts nowIso).2 =
      (if (seedBody r).length < 200 ∧ i < 3 then [Ev.extract i] else []) ++
      (if (processResult r i eo tro ts nowIso).1.originalText ≠ "" ∧
          50 < (processResult r i eo tro ts nowIso).1.originalText.length then
        [Ev.wait 1500, Ev.translate i] else []) := by
  by_cases hc : (seedBody r).length < 200 ∧ i < 3 <;>
    simp [processResult, hc, apply_ite]

/-- A string longer than 50 characters is not empty, so the source's guard
`fullContent && fullContent.length > 50` is equivalent to the length test. -/
theorem long_body_cond (s : String) : (s ≠ "" ∧ 50 < s.length) ↔ 50 < s.length := by
  constructor
  · exact And.right
  · intro h
    refine ⟨?_, h⟩
    intro hrfl
    rw [hrfl] at h
    exact absurd h (by decide)

/-- C5: a full-content extraction call is attempted if and only if the seed
body is shorter than 200 characters and the result's index in the capped list
is less than 3 (first conjunct); on success with extracted length over 200
the body becomes the first 2000 characters of the extracted content (second
conjunct); on extraction failure the snippet-derived body is kept and the
article is still produced (third conjunct). -/
theorem extraction_policy (r : SResult) (i : Nat) (eo tro : Except Err String)
    (ts : Nat) (nowIso : String) :
    (Ev.extract i ∈ (processResult r i eo tro ts nowIso).2 ↔
      (seedBody r).length < 200 ∧ i < 3) ∧
    (∀ c, eo = .ok c → (seedBody r).length < 200 → i < 3 → 200 < c.length →
      (processResult r i eo tro ts nowIso).1.originalText = c.take 2000) ∧
    (∀ e, eo = .error e →
      (processResult r i eo tro ts nowIso).1.originalText = seedBody r ∧
      (processResult r i eo tro ts nowIso).1.title = r.title ∧
      (processResult r i eo tro ts nowIso).1.url = r.link) := by
  refine ⟨?_, ?_, ?_⟩
  · rw [processResult_trace]
    by_cases hc : (seedBody r).length < 200 ∧ i < 3
    · simp [hc]
    · simp only [if_neg hc, List.nil_append]
      constructor
      · intro hmem
        exfalso
        split at hmem <;> simp at hmem
      · intro h
        exact absurd h hc
  · intro c hcc h200 h3 hlen
    have hne : c ≠ "" := by
      intro hrfl
      rw [hrfl] at hlen
      exact absurd hlen (by decide)
    rw [processResult_originalText, if_pos ⟨h200, h3⟩, hcc]
    simp [hne, hlen]
  · intro e hee
    refine ⟨?_, rfl, rfl⟩
    rw [processResult_originalText, hee]
    split <;> rfl

set_option maxRecDepth 4000 in
/-- Witness for `extraction_policy`: a result with a 5-character snippet at
index 0 whose extraction returns 201 characters gets the truncated extracted
body; with a failing extraction it keeps the snippet body. -/
theorem extraction_policy_witness :
    (processResult ⟨"T", some ("short"), none, "https://x.example/a", none, none,
        none, none⟩ 0 (.ok (String.mk (List.replicate 201 'a'))) (.ok ("t")) 5
        "iso").1.originalText = (String.mk (List.replicate 201 'a')).take 2000
    ∧ (processResult ⟨"T", some ("short"), none, "https://x.example/a", none, none,
        none, none⟩ 0 (.error ⟨none⟩) (.ok ("t")) 5 "iso").1.originalText =
      seedBody ⟨"T", some ("short"), none, "https://x.example/a", none, none,
        none, none⟩ := by
  constructor
  · exact (extraction_policy _ 0 _ _ 5 "iso").2.1 _ rfl (by decide) (by decide)
      (by decide)
  · exact ((extraction_policy _ 0 _ _ 5 "iso").2.2 ⟨none⟩ rfl).1

/-- C6: translation is requested if and only if the body length exceeds 50
characters (first conjunct); with a body of 50 characters or fewer the
translated field remains empty (second conjunct); on translation failure the
translated field equals the fixed failure marker, which is neither empty nor
the untranslated body (third conjunct). -/
theorem translation_policy (r : SResult) (i : Nat) (eo tro : Except Err String)
    (ts : Nat) (nowIso : String) :
    (Ev.translate i ∈ (processResult r i eo tro ts nowIso).2 ↔
      50 < (processResult r i eo tro ts nowIso).1.originalText.length) ∧
    ((processResult r i eo tro ts nowIso).1.originalText.length ≤ 50 →
      (processResult r i eo tro ts nowIso).1.translatedText = "") ∧
    (∀ e, tro = .error e →
      50 < (processResult r i eo tro ts nowIso).1.originalText.length →
      (processResult r i eo tro ts nowIso).1.translatedText = translationFailMessage ∧
      (processResult r i eo tro ts nowIso).1.translatedText ≠ "" ∧
      (processResult r i eo tro ts nowIso).1.translatedText ≠
        (processResult r i eo tro ts nowIso).1.originalText) := by
  refine ⟨?_, ?_, ?_⟩
  · rw [processResult_trace]
    simp only [long_body_cond]
    generalize (processResult r i eo tro ts nowIso).1.originalText = X
    by_cases h50 : 50 < X.length <;>
      by_cases hc : (seedBody r).length < 200 ∧ i < 3 <;> simp [hc, h50]
  · intro hle
    rw [processResult_translatedText, if_neg (fun h => absurd h.2 (by omega))]
  · intro e hee h50
    rw [processResult_translatedText,
      if_pos ((long_body_cond _).mpr h50), hee]
    refine ⟨rfl, ?_, ?_⟩
    · show translationFailMessage ≠ ""
      decide
    · intro heq
      have heq2 : translationFailMessage =
          (processResult r i eo (Except.error e) ts nowIso).1.originalText := heq
      have hlen := congrArg String.length heq2
      rw [show translationFailMessage.length = 9 from rfl] at hlen
      rw [hee] at h50
      omega

set_option maxRecDepth 4000 in
/-- Witness for `translation_policy`: a 60-character body with a failing
translation gets the failure marker; a 4-character body skips translation. -/
theorem translation_policy_witness :
    (processResult ⟨"T", some (String.mk (List.replicate 60 'b')), none,
        "https://x.example/b", none, none, none, none⟩ 0 (.error ⟨none⟩)
        (.error ⟨none⟩) 5 "iso").1.translatedText = translationFailMessage
    ∧ (processResult ⟨"T", some ("tiny"), none, "https://x.example/c", none, none,
        none, none⟩ 0 (.error ⟨none⟩) (.error ⟨none⟩) 5
        "iso").1.translatedText = "" := by
  constructor
  · exact ((translation_policy _ 0 _ _ 5 "iso").2.2 ⟨none⟩ rfl (by decide)).1
  · exact (translation_policy _ 0 _ _ 5 "iso").2.1 (by decide)

/-- C7: whenever an error reaches the pipeline's top-level handler, the
displayed batch is exactly the 3 fixed, hardcoded, pre-translated sample
articles in their fixed order, regardless of the articles gathered so far
(last conjunct: the output does not depend on them, nor on the error). -/
theorem fallback_fixed_three (gathered : List NewsArticle) (e : Err)
    (nowIso : String) :
    fetchNewsDisplayed gathered (some e) nowIso = sampleArticles nowIso ∧
    (sampleArticles nowIso).length = 3 ∧
    (sampleArticles nowIso).map NewsArticle.id =
      ["sample-1", "sample-2", "sample-3"] ∧
    ∀ (gathered2 : List NewsArticle) (e2 : Err),
      fetchNewsDisplayed gathered (some e) nowIso =
        fetchNewsDisplayed gathered2 (some e2) nowIso :=
  ⟨rfl, rfl, rfl, fun _ _ => rfl⟩

/-! ### Lemmas about loop pacing -/

/-- The query loop's trace: each iteration emits its search event, and the
2000 ms pacing delay follows exactly when the search succeeded and was not
the last one. -/
theorem searchLoopAux_trace (outcome : Nat → Except Err (List SResult))
    (n : Nat) : ∀ (f i : Nat),
    (searchLoopAux outcome n i f).2 =
      pacedTraceAux (fun k => (outcome k).isOk) Ev.search n i f := by
  intro f
  induction f with
  | zero => intro i; rfl
  | succ f ih =>
    intro i
    rw [show pacedTraceAux (fun k => (outcome k).isOk) Ev.search n i (f + 1) =
      (Ev.search i :: if (outcome i).isOk = true ∧ i < n - 1 then [Ev.wait 2000]
        else []) ++
      pacedTraceAux (fun k => (outcome k).isOk) Ev.search n (i + 1) f from rfl]
    rw [← ih (i + 1)]
    cases ho : outcome i with
    | ok rs =>
      rw [show searchLoopAux outcome n i (f + 1) =
        (rs ++ (searchLoopAux outcome n (i + 1) f).1,
         (Ev.search i :: if i < n - 1 then [Ev.wait 2000] else []) ++
           (searchLoopAux outcome n (i + 1) f).2) from by
        simp [searchLoopAux, ho]]
      simp [ho, Except.isOk, Except.toBool]
    | error e =>
      rw [show searchLoopAux outcome n i (f + 1) =
        ((searchLoopAux outcome n (i + 1) f).1,
         Ev.search i :: (searchLoopAux outcome n (i + 1) f).2) from by
        simp [searchLoopAux, ho]]
      simp [ho, Except.isOk, Except.toBool]

/-- The processing loop's trace: each iteration emits its processing event,
and the 2000 ms pacing delay follows exactly when the iteration completed
without an uncaught error and was not the last one. -/
theorem processLoopAux_trace (step : Nat → Except Err NewsArticle)
    (m : Nat) : ∀ (f i : Nat),
    (processLoopAux step m i f).2 =
      pacedTraceAux (fun k => (step k).isOk) Ev.process m i f := by
  intro f
  induction f with
  | zero => intro i; rfl
  | succ f ih =>
    intro i
    rw [show pacedTraceAux (fun k => (step k).isOk) Ev.process m i (f + 1) =
      (Ev.process i :: if (step i).isOk = true ∧ i < m - 1 then [Ev.wait 2000]
        else []) ++
      pacedTraceAux (fun k => (step k).isOk) Ev.process m (i + 1) f from rfl]
    rw [← ih (i + 1)]
    cases ho : step i with
    | ok a =>
      rw [show processLoopAux step m i (f + 1) =
        (a :: (processLoopAux step m (i + 1) f).1,
         (Ev.process i :: if i < m - 1 then [Ev.wait 2000] else []) ++
           (processLoopAux step m (i + 1) f).2) from by
        simp [processLoopAux, ho]]
      simp [ho, Except.isOk, Except.toBool]
    | error e =>
      rw [show processLoopAux step m i (f + 1) =
        ((processLoopAux step m (i + 1) f).1,
         Ev.process i :: (processLoopAux step m (i + 1) f).2) from by
        simp [processLoopAux, ho]]
      simp [ho, Except.isOk, Except.toBool]

/-- C8 counterexample: the claim says the 2000 ms pacing delay occurs between
consecutive query executions and between consecutive result processings even
when the earlier one fails.  At the concrete input where both queries (resp.
both processings) fail, the traces contain the two iterations with no pacing
delay at all, because the delay statement sits inside the `try` block and a
failure jumps past it into the `catch`. -/
theorem pacing_delay_skipped_on_failure :
    (searchLoop (fun _ => .error ⟨none⟩) 2).2 = [Ev.search 0, Ev.search 1] ∧
    Ev.wait 2000 ∉ (searchLoop (fun _ => .error ⟨none⟩) 2).2 ∧
    (processLoop (fun _ => .error ⟨none⟩) 2).2 = [Ev.process 0, Ev.process 1] ∧
    Ev.wait 2000 ∉ (processLoop (fun _ => .error ⟨none⟩) 2).2 := by
  refine ⟨rfl, by decide, rfl, by decide⟩

/-- C8 amended: in both loops, the 2000 ms pacing delay occurs after
iteration `i` exactly when that iteration completed without an uncaught error
and `i` is not the last index; the delay never occurs after the last
iteration, and after a failed iteration the delay is skipped. -/
theorem pacing_delay_after_success_only
    (outcome : Nat → Except Err (List SResult)) (n : Nat)
    (step : Nat → Except Err NewsArticle) (m : Nat) :
    (searchLoop outcome n).2 =
      pacedTrace (fun k => (outcome k).isOk) Ev.search n ∧
    (processLoop step m).2 =
      pacedTrace (fun k => (step k).isOk) Ev.process m :=
  ⟨searchLoopAux_trace outcome n n 0, processLoopAux_trace step m m 0⟩

/-! ### Lemmas about article identifiers -/

/-- Characters emitted by `Nat.digitChar` below 10 are never `'-'`. -/
theorem digitChar_ne_dash (d : Nat) (h : d < 10) : Nat.digitChar d ≠ '-' := by
  interval_cases d <;> decide

/-- `Nat.digitChar` is injective below 10. -/
theorem digitChar_inj_lt (a b : Nat) (ha : a < 10) (hb : b < 10) :
    Nat.digitChar a = Nat.digitChar b → a = b := by
  interval_cases a <;> interval_cases b <;> decide

/-- The decimal digit list of a number is never empty. -/
theorem digitsAux_ne_nil (n : Nat) : digitsAux n ≠ [] := by
  unfold digitsAux
  split <;> simp

/-- Unfolding `digitsAux` below 10. -/
theorem digitsAux_lt (n : Nat) (h : n < 10) : digitsAux n = [Nat.digitChar n] := by
  rw [digitsAux.eq_def, dif_pos h]

/-- Unfolding `digitsAux` at or above 10. -/
theorem digitsAux_ge (n : Nat) (h : ¬n < 10) :
    digitsAux n = digitsAux (n / 10) ++ [Nat.digitChar (n % 10)] := by
  conv_lhs => rw [digitsAux.eq_def]
  rw [dif_neg h]

/-- Decimal digit lists contain no dash. -/
theorem digitsAux_no_dash : ∀ n : Nat, ∀ c ∈ digitsAux n, c ≠ '-' := by
  intro n
  induction n using Nat.strong_induction_on with
  | _ n ih =>
    intro c hc
    unfold digitsAux at hc
    split at hc
    · next h =>
      simp at hc
      subst hc
      exact digitChar_ne_dash n h
    · next h =>
      rcases List.mem_append.mp hc with h1 | h1
      · exact ih (n / 10) (Nat.div_lt_self (by omega) (by omega)) c h1
      · simp at h1
        subst h1
        exact digitChar_ne_dash (n % 10) (Nat.mod_lt _ (by omega))

/-- A one-digit list never equals a digit list extended by one digit. -/
theorem singleton_ne_append_digitsAux (a b : Nat) (c : Char) :
    [c] ≠ digitsAux a ++ [Nat.digitChar b] := by
  intro h
  cases hd : digitsAux a with
  | nil => exact digitsAux_ne_nil a hd
  | cons x xs =>
    rw [hd] at h
    simp at h

/-- Decimal digit lists determine the number. -/
theorem digitsAux_inj : ∀ m n : Nat, digitsAux m = digitsAux n → m = n := by
  intro m
  induction m using Nat.strong_induction_on with
  | _ m ih =>
    intro n heq
    by_cases hm : m < 10 <;> by_cases hn : n < 10
    · rw [digitsAux_lt m hm, digitsAux_lt n hn] at heq
      simp at heq
      exact digitChar_inj_lt m n hm hn heq
    · rw [digitsAux_lt m hm, digitsAux_ge n hn] at heq
      exact absurd heq (singleton_ne_append_digitsAux _ _ _)
    · rw [digitsAux_ge m hm, digitsAux_lt n hn] at heq
      exact absurd heq.symm (singleton_ne_append_digitsAux _ _ _)
    · rw [digitsAux_ge m hm, digitsAux_ge n hn] at heq
      obtain ⟨h1, h2⟩ := List.append_inj' heq (by simp)
      have hdiv : m / 10 = n / 10 :=
        ih (m / 10) (Nat.div_lt_self (by omega) (by omega)) (n / 10) h1
      have hmod : m % 10 = n % 10 :=
        digitChar_inj_lt _ _ (Nat.mod_lt _ (by omega)) (Nat.mod_lt _ (by omega))
          (by simpa using h2)
      omega

/-- The fuelled core of `Nat.repr` computes the decimal digit list, for any
sufficient fuel. -/
theorem toDigitsCore_eq_digitsAux :
    ∀ (n fuel : Nat) (ds : List Char), n < fuel →
      Nat.toDigitsCore 10 fuel n ds = digitsAux n ++ ds := by
  intro n
  induction n using Nat.strong_induction_on with
  | _ n ih =>
    intro fuel ds hf
    obtain ⟨f, rfl⟩ : ∃ f, fuel = f + 1 := ⟨fuel - 1, by omega⟩
    by_cases h10 : n / 10 = 0
    · have hn : n < 10 := by omega
      rw [show Nat.toDigitsCore 10 (f + 1) n ds = Nat.digitChar (n % 10) :: ds from by
        simp [Nat.toDigitsCore, h10]]
      unfold digitsAux
      rw [dif_pos hn, Nat.mod_eq_of_lt hn]
      rfl
    · rw [show Nat.toDigitsCore 10 (f + 1) n ds =
        Nat.toDigitsCore 10 f (n / 10) (Nat.digitChar (n % 10) :: ds) from by
        simp [Nat.toDigitsCore, h10]]
      rw [ih (n / 10) (Nat.div_lt_self (by omega) (by omega)) f _ (by omega)]
      rw [show digitsAux n = digitsAux (n / 10) ++ [Nat.digitChar (n % 10)] from by
        conv_lhs => rw [digitsAux.eq_def]
        rw [dif_neg (by omega)]]
      simp

/-- The characters of `Nat.repr n` are the decimal digits of `n`. -/
theorem Nat_repr_data (n : Nat) : (Nat.repr n).data = digitsAux n := by
  show ((Nat.toDigits 10 n).asString).data = digitsAux n
  rw [Nat.toDigits, toDigitsCore_eq_digitsAux n (n + 1) [] (by omega)]
  simp [List.asString]

/-- Splitting two equal character lists at a dash whose suffixes are
dash-free: the suffixes agree (the dash shown is the last dash of both). -/
theorem eq_of_append_dash {bs ds : List Char} :
    ∀ (as cs : List Char), as ++ '-' :: bs = cs ++ '-' :: ds →
      '-' ∉ bs → '-' ∉ ds → bs = ds := by
  intro as
  induction as with
  | nil =>
    intro cs h hb hd
    cases cs with
    | nil => simpa using h
    | cons c cs' =>
      simp at h
      exact absurd (by rw [h.2]; simp : '-' ∈ bs) hb
  | cons a as' ih =>
    intro cs h hb hd
    cases cs with
    | nil =>
      simp at h
      exact absurd (by rw [← h.2]; simp : '-' ∈ ds) hd
    | cons c cs' =>
      simp at h
      exact ih cs' h.2 hb hd

/-- Appending strings concatenates their character lists. -/
theorem string_data_append (a b : String) : (a ++ b).data = a.data ++ b.data := rfl

/-- The characters of an article identifier, split at the dash preceding the
loop index. -/
theorem mkArticleId_data (t i : Nat) :
    (mkArticleId t i).data =
      ("article-".data ++ (Nat.repr t).data) ++ '-' :: (Nat.repr i).data := by
  simp [mkArticleId, string_data_append]

/-- Article identifiers built from distinct loop indices differ, whatever the
timestamps are: the digits after the last dash recover the index. -/
theorem mkArticleId_inj (t1 t2 i j : Nat) (hij : i ≠ j) :
    mkArticleId t1 i ≠ mkArticleId t2 j := by
  intro heq
  apply hij
  have hdata := congrArg String.data heq
  rw [mkArticleId_data, mkArticleId_data] at hdata
  have hrepr := eq_of_append_dash ("article-".data ++ (Nat.repr t1).data)
    ("article-".data ++ (Nat.repr t2).data) hdata
    (fun h => digitsAux_no_dash i '-' (by rwa [Nat_repr_data] at h) rfl)
    (fun h => digitsAux_no_dash j '-' (by rwa [Nat_repr_data] at h) rfl)
  rw [Nat_repr_data, Nat_repr_data] at hrepr
  exact digitsAux_inj i j hrepr

/-- C9: within a single fetch batch every article's identifier is distinct
from every other article's identifier (first conjunct), whatever per-article
timestamps the clock returns; and the identifier is not the deduplication
key — deduplication keys on the `link` (URL) field of the raw search
results, whose surviving values are pairwise distinct (second conjunct). -/
theorem batch_ids_unique (allResults : List SResult)
    (eo tro : Nat → Except Err String) (ts : Nat → Nat) (nowIso : String) :
    (fetchBatch allResults eo tro ts nowIso).Pairwise (fun a b => a.id ≠ b.id) ∧
    ((uniqueResults allResults).map SResult.link).Nodup := by
  constructor
  · rw [List.pairwise_iff_getElem]
    intro a b ha hb hab
    simp only [fetchBatch, List.getElem_map, List.getElem_range]
    exact mkArticleId_inj (ts a) (ts b) a b (Nat.ne_of_lt hab)
  · rw [uniqueResults_eq_firstWins]
    exact (firstWinsByLink_nodup_and_disjoint allResults []).1
